import Mathlib

/-!
Shallow embedding of the PII-redaction pipeline (pos-ocr → pii-identifier →
category filter → redactor → report builder) and proofs of its specified
properties.  Numeric pixel/point coordinates are modelled as rationals,
Python dictionaries as structures with `Option` fields for keys that may be
absent, Python lists as Lean lists, and in-place mutation as explicit
functional update.  The remote classifier and the three compiled regular
expressions are external collaborators and are modelled as parameters
(an oracle for the remote call, a record of token predicates for the
regexes); everything else is translated directly from the source.
-/

/- ---------------------------------------------------------------- -/
/- Data model: tokens, annotations, pages (the positions / with_pii JSON). -/

/-- Pixel-space bounding box `{x, y, w, h}` of one OCR token. -/
structure BBox where
  x : ℚ
  y : ℚ
  w : ℚ
  h : ℚ
deriving DecidableEq, Repr

/-- PII annotation dictionary `{is_pii, type}` attached to a token.  The
`source` field models a possible extra `"source"` key inside the pii dict
(read by the report builder via `pii.get("source")`, never written by the
tagger). -/
structure Pii where
  is_pii : Bool
  type : Option String
  source : Option String
deriving DecidableEq, Repr

/-- One OCR word record.  `bbox`, `box` and `bbox_px` model the three
alternative bounding-box keys probed by the report builder
(`w.get("bbox") or w.get("box") or w.get("bbox_px")`); pos-ocr writes only
`bbox`.  An absent or `None` text key behaves as `""` everywhere it is read
(`w.get("text") or ""`), so `text` is a plain string. -/
structure Word where
  text : String
  bbox : Option BBox
  box : Option BBox
  bbox_px : Option BBox
  conf : Option ℚ
  pii : Pii
deriving DecidableEq, Repr

/-- One page record of the positions / with_pii JSON:
`{page, width, height, words}`. -/
structure Page where
  page : Option ℤ
  width : Option ℤ
  height : Option ℤ
  words : List Word
deriving DecidableEq, Repr

/-- One classification result entry `{index, type}` as produced by the
remote call or the regex fallback; `index` is an arbitrary integer because
`_mark` re-checks bounds itself. -/
structure Red where
  index : ℤ
  type : Option String
deriving DecidableEq, Repr

/- ---------------------------------------------------------------- -/
/- String helpers: Python's `str.lower`, `str.strip` and `in` are runtime
primitives of the language; they are embedded as computable functions on
the character lists of strings. -/

/-- Python's `str.lower()` (ASCII case folding, as used by the source). -/
def pyLower (s : String) : String :=
  ⟨s.data.map Char.toLower⟩

/-- Python's `str.strip()`: remove leading and trailing whitespace. -/
def pyStrip (s : String) : String :=
  ⟨((s.data.dropWhile Char.isWhitespace).reverse.dropWhile Char.isWhitespace).reverse⟩

/-- Whether `pat` begins the character list `hay`. -/
def isPrefixChars : List Char → List Char → Bool
  | [], _ => true
  | _ :: _, [] => false
  | c :: cs, d :: ds => c = d && isPrefixChars cs ds

/-- Whether `pat` occurs as a contiguous run inside `hay`. -/
def containsSub (pat : List Char) : List Char → Bool
  | [] => isPrefixChars pat []
  | c :: t => isPrefixChars pat (c :: t) || containsSub pat t

/-- Python's substring operator `pat in s` (true for the empty pattern). -/
def strContains (s pat : String) : Bool :=
  containsSub pat.data s.data

/- ---------------------------------------------------------------- -/
/- pii-identifier.py : regex fallback classifier. -/

/-- Address-cue keyword set `ADDR_CUES` of pii-identifier.py. -/
def ADDR_CUES : List String :=
  ["street", "st.", "road", "rd.", "avenue", "ave", "sector", "block", "phase",
   "colony", "lane", "ln", "plot", "apt", "flat", "suite", "zip", "pincode", "pin",
   "city", "state"]

/-- Modelled from the spec: the three compiled regular expressions
`EMAIL_RE`, `IPV4_RE`, `PHONE_RE` belong to the external `re` engine, so
they are carried as abstract token predicates; the surrounding loop,
window construction and de-duplication are translated from the source. -/
structure Matchers where
  email : String → Bool
  ipv4 : String → Bool
  phone : String → Bool

/-- The phone-check span of `regex_pii_indices`: texts of tokens
`i .. min(i+3, len)-1`, space-joined, un-stripped. -/
def spanText (words : List Word) (i : ℕ) : String :=
  " ".intercalate (((words.drop i).take 3).map Word.text)

/-- The address-cue window of `regex_pii_indices`: lower-cased texts of
tokens `max(0, i-5) .. min(len, i+5)-1`, space-joined. -/
def windowText (words : List Word) (i : ℕ) : String :=
  " ".intercalate
    (((words.drop (i - 5)).take (min (i + 5) words.length - (i - 5))).map
      (fun w => pyLower w.text))

/-- The body of one iteration of the `regex_pii_indices` loop: at most one
entry per position, checked in the priority order email, ip, phone,
address. -/
def hitAt (m : Matchers) (words : List Word) (i : ℕ) (w : Word) : Option Red :=
  let t := pyStrip w.text
  if t = "" then none
  else if m.email t then some ⟨(i : ℤ), some "email"⟩
  else if m.ipv4 t then some ⟨(i : ℤ), some "ip"⟩
  else if m.phone (spanText words i) then some ⟨(i : ℤ), some "phone"⟩
  else if ADDR_CUES.any (fun cue => strContains (windowText words i) cue) then
    some ⟨(i : ℤ), some "address"⟩
  else none

/-- The raw `out` list accumulated by the `regex_pii_indices` loop before
de-duplication. -/
def regexRawHits (m : Matchers) (words : List Word) : List Red :=
  words.enum.filterMap (fun p => hitAt m words p.1 p.2)

/-- The `# distinct by index` loop of `regex_pii_indices`: keep the first
entry for each index, carrying the `seen` set. -/
def dedupFirstByIndex : List Red → List ℤ → List Red
  | [], _ => []
  | r :: rest, seen =>
    if r.index ∈ seen then dedupFirstByIndex rest seen
    else r :: dedupFirstByIndex rest (r.index :: seen)

/-- Fallback classifier `regex_pii_indices` of pii-identifier.py. -/
def regex_pii_indices (m : Matchers) (words : List Word) : List Red :=
  dedupFirstByIndex (regexRawHits m words) []

/- ---------------------------------------------------------------- -/
/- pii-identifier.py : chunking, marking, page tagging. -/

/-- Function `_chunk`: `[(i, seq[i:i+size]) for i in range(0, len(seq), size)]`;
for `size > 0` the starts are `0, size, 2*size, …`, `⌈len/size⌉` of them. -/
def _chunk {α : Type} (seq : List α) (size : ℕ) : List (ℕ × List α) :=
  (List.range ((seq.length + size - 1) / size)).map
    (fun k => (k * size, (seq.drop (k * size)).take size))

/-- The assignment `words[idx]["pii"] = {"is_pii": True, "type": r.get("type", "other")}`
performed by `_mark` on the token it hits (the fresh pii dict has no
`source` key). -/
def writePii (r : Red) (w : Word) : Word :=
  { w with pii := { is_pii := true, type := some (r.type.getD "other"), source := none } }

/-- In-place update of the list element at a position (no-op out of bounds),
modelling `words[idx] = …`. -/
def modifyAt {α : Type} (f : α → α) : ℕ → List α → List α
  | _, [] => []
  | 0, a :: as => f a :: as
  | n + 1, a :: as => a :: modifyAt f n as

/-- Function `_mark`: for each result entry, write the annotation at global
index `start + r["index"]` if that index is within the page bounds, else
silently skip.  Later entries overwrite earlier ones at the same index. -/
def _mark (words : List Word) (red : List Red) (start : ℤ) : List Word :=
  red.foldl
    (fun ws r =>
      let idx := start + r.index
      if 0 ≤ idx ∧ idx < (ws.length : ℤ) then modifyAt (writePii r) idx.toNat ws
      else ws)
    words

/-- Outcome of one remote classification call `_call_gemini` for a chunk:
either an exception or a (possibly empty) result list.  The network call is
an external collaborator, modelled as an oracle indexed by the chunk start. -/
inductive RemoteOutcome where
  | err : RemoteOutcome
  | ok : List Red → RemoteOutcome

/-- The per-chunk result selection inside `tag_page`:
`try: red = _call_gemini(chunk) except: red = []` followed by
`if not red: red = regex_pii_indices(chunk)`. -/
def chunkRed (remote : ℕ → List Word → RemoteOutcome) (m : Matchers)
    (start : ℕ) (c : List Word) : List Red :=
  let red := match remote start c with
    | RemoteOutcome.err => []
    | RemoteOutcome.ok l => l
  if red.isEmpty then regex_pii_indices m c else red

/-- Function `tag_page`: copy every word with a default `{false, None}`
annotation, then for each chunk mark the selected result list at the
chunk's start offset.  (The inter-chunk `time.sleep` is pure pacing.) -/
def tag_page (remote : ℕ → List Word → RemoteOutcome) (m : Matchers)
    (size : ℕ) (words : List Word) : List Word :=
  let tagged := words.map (fun w => { w with pii := ⟨false, none, none⟩ })
  (_chunk tagged size).foldl
    (fun ws sc => _mark ws (chunkRed remote m sc.1 sc.2) (sc.1 : ℤ)) tagged

/- ---------------------------------------------------------------- -/
/- streamlit_app.py : type normalization and category filter. -/

/-- Alias set `_ID_ALIASES` of streamlit_app.py. -/
def _ID_ALIASES : List String :=
  ["ssn", "tax_id", "routing_number", "bank_account", "client_id"]

/-- Alias set `_NAME_ALIASES` of streamlit_app.py. -/
def _NAME_ALIASES : List String :=
  ["name", "person", "personal_name", "full_name", "human_name",
   "first_name", "last_name", "surname", "given_name"]

/-- Function `_normalize_type`: map a raw tagger type into the fixed UI
category vocabulary (`None` and `""` are falsy in Python, hence "other"). -/
def _normalize_type (t : Option String) : String :=
  match t with
  | none => "other"
  | some s =>
    if s = "" then "other"
    else
      let t2 := pyStrip (pyLower s)
      if _NAME_ALIASES.contains t2 then "name"
      else if ["email", "phone", "ip", "address", "id_number", "password", "other"].contains t2 then t2
      else if _ID_ALIASES.contains t2 then "id_number"
      else "other"

/-- The per-word body of `filter_pii`: a flagged word whose normalized type
is not kept has `is_pii` and `type` reset (other pii keys untouched);
everything else is left alone. -/
def filterWord (keep_types : List String) (w : Word) : Word :=
  if !w.pii.is_pii then w
  else if !(keep_types.contains (_normalize_type w.pii.type)) then
    { w with pii := { is_pii := false, type := none, source := w.pii.source } }
  else w

/-- Function `filter_pii` on the pages of the classified document (the
JSON read/write framing is I/O). -/
def filter_pii (keep_types : List String) (pages : List Page) : List Page :=
  pages.map (fun pg => { pg with words := pg.words.map (filterWord keep_types) })

/- ---------------------------------------------------------------- -/
/- redactor.py : type selection and geometry. -/

/-- Constant `ALL_TYPES` of redactor.py (a set, modelled as a list up to
membership). -/
def ALL_TYPES : List String :=
  ["name", "email", "phone", "address", "ip", "id_number", "other"]

/-- Function `parse_types`: `"all"` selects `ALL_TYPES`; otherwise split on
commas, strip/lower-case, drop empties, and intersect with `ALL_TYPES`
(unknown names are only warned about). -/
def parse_types (s : String) : List String :=
  if pyLower (pyStrip s) = "all" then ALL_TYPES
  else
    ((((s.splitOn ",").map pyStrip).filter (fun t => t ≠ "")).map pyLower).filter
      (fun t => ALL_TYPES.contains t)

/-- Function `expand_bbox`: pad the pixel box by `margin` on all four sides. -/
def expand_bbox (b : BBox) (margin : ℚ) : BBox :=
  ⟨b.x - margin, b.y - margin, b.w + 2 * margin, b.h + 2 * margin⟩

/-- Page-point rectangle `(x0, y0, x1, y1)`. -/
structure Rect where
  x0 : ℚ
  y0 : ℚ
  x1 : ℚ
  y1 : ℚ
deriving DecidableEq, Repr

/-- Width of a rectangle (`x1 - x0`). -/
def Rect.width (r : Rect) : ℚ := r.x1 - r.x0

/-- Height of a rectangle (`y1 - y0`). -/
def Rect.height (r : Rect) : ℚ := r.y1 - r.y0

/-- Modelled from the spec: `clamp_rect` delegates to the PDF library's
`fitz.Rect.intersect`, an external collaborator; the spec's clipping
contract ("clips to page bounds", "clipped to exactly the page boundary on
the overlapping side(s)") is the componentwise max/min intersection. -/
def rectIntersect (r s : Rect) : Rect :=
  ⟨max r.x0 s.x0, max r.y0 s.y0, min r.x1 s.x1, min r.y1 s.y1⟩

/-- Function `clamp_rect`: intersect the candidate rectangle with the page
rectangle. -/
def clamp_rect (rect page_rect : Rect) : Rect :=
  rectIntersect rect page_rect

/-- Function `px_to_pdf_rect`: scale the pixel box corners into page
points. -/
def px_to_pdf_rect (bbox_px : BBox) (scale : ℚ) : Rect :=
  ⟨bbox_px.x * scale, bbox_px.y * scale,
   (bbox_px.x + bbox_px.w) * scale, (bbox_px.y + bbox_px.h) * scale⟩

/-- The type string the redactor main loop computes for a flagged word:
`str(pii.get("type") or "other").lower()`. -/
def wordType (w : Word) : String :=
  let raw := w.pii.type.getD ""
  pyLower (if raw = "" then "other" else raw)

/-- The per-word body of the box-collection loop in redactor.py `main`:
skip unflagged words, unwanted types and missing boxes; expand, scale and
clip the box; keep it only when the clipped rectangle has positive width
and height. -/
def wordBox (wanted : List String) (margin scale : ℚ) (page_rect : Rect)
    (w : Word) : Option (Rect × String) :=
  if !w.pii.is_pii then none
  else
    let wtype := wordType w
    if !(wanted.contains wtype) then none
    else
      match w.bbox with
      | none => none
      | some b =>
        let rect := clamp_rect (px_to_pdf_rect (expand_bbox b margin) scale) page_rect
        if 0 < rect.width ∧ 0 < rect.height then some (rect, wtype) else none

/-- The `boxes` list collected for one page by redactor.py `main`. -/
def pageBoxes (wanted : List String) (margin scale : ℚ) (page_rect : Rect)
    (words : List Word) : List (Rect × String) :=
  words.filterMap (wordBox wanted margin scale page_rect)

/- ---------------------------------------------------------------- -/
/- streamlit_app.py : report builder and CSV export. -/

/-- Function `_safe_text` restricted to strings (its isinstance branches
only coerce non-strings, which the typed model rules out): strip. -/
def _safe_text (x : String) : String := pyStrip x

/-- Function `_collect_context`: up to `left_n` non-empty stripped texts
walking left (re-reversed into reading order), the token's own text, and up
to `right_n` non-empty stripped texts walking right, space-joined. -/
def _collect_context (words : List Word) (idx : ℕ) (left_n right_n : ℕ) : String :=
  let left :=
    (((((words.take idx).reverse).map (fun w => _safe_text w.text)).filter
      (fun t => t ≠ "")).take left_n).reverse
  let center := ((words.get? idx).map (fun w => _safe_text w.text)).getD ""
  let right :=
    ((((words.drop (idx + 1)).map (fun w => _safe_text w.text)).filter
      (fun t => t ≠ "")).take right_n)
  " ".intercalate (left ++ [center] ++ right)

/-- One item of the structured redaction report. -/
structure ReportItem where
  page : Option ℤ
  index : ℕ
  type : String
  source : String
  text : String
  confidence : Option ℚ
  bbox : Option BBox
  page_width : Option ℤ
  page_height : Option ℤ
  context : String
deriving DecidableEq, Repr

/-- The item dictionary appended by `build_redaction_report` for the
flagged word at position `i` of page `pg`.  The `float(conf)` coercion is
the identity on the numeric model (and `None` stays `None`); the source
string defaults to `"unknown"` when absent or empty. -/
def mkItem (pg : Page) (i : ℕ) (w : Word) : ReportItem :=
  { page := pg.page
    index := i
    type := _normalize_type w.pii.type
    source := _safe_text (let s := w.pii.source.getD ""; if s = "" then "unknown" else s)
    text := _safe_text w.text
    confidence := w.conf
    bbox := (w.bbox.orElse (fun _ => w.box)).orElse (fun _ => w.bbox_px)
    page_width := pg.width
    page_height := pg.height
    context := _collect_context pg.words i 3 3 }

/-- Increment of a `Counter` key, modelled on an insertion-ordered
association list. -/
def bump {α : Type} [DecidableEq α] : List (α × ℕ) → α → List (α × ℕ)
  | [], k => [(k, 1)]
  | (k2, n) :: rest, k =>
    if k2 = k then (k2, n + 1) :: rest else (k2, n) :: bump rest k

/-- Total of all counts of a counter. -/
def sumCounts {α : Type} (c : List (α × ℕ)) : ℕ :=
  (c.map Prod.snd).sum

/-- The summary block of the report. -/
structure Summary where
  total : ℕ
  by_type : List (String × ℕ)
  by_page : List (Option ℤ × ℕ)
deriving DecidableEq, Repr

/-- The structured redaction report. -/
structure Report where
  summary : Summary
  items : List ReportItem
deriving DecidableEq, Repr

/-- Accumulator of the `build_redaction_report` loops: the items list, the
two counters and the running total. -/
structure BuildAcc where
  items : List ReportItem
  by_type : List (String × ℕ)
  by_page : List (Option ℤ × ℕ)
  total : ℕ
deriving DecidableEq, Repr

/-- The body of the inner `for i, w in enumerate(words)` loop of
`build_redaction_report`: for a flagged word append its item, bump both
counters and the total; skip other words. -/
def buildWordStep (pg : Page) (a : BuildAcc) (p : ℕ × Word) : BuildAcc :=
  if p.2.pii.is_pii then
    { items := a.items ++ [mkItem pg p.1 p.2]
      by_type := bump a.by_type (_normalize_type p.2.pii.type)
      by_page := bump a.by_page pg.page
      total := a.total + 1 }
  else a

/-- The inner per-page loop of `build_redaction_report`. -/
def buildStep (acc : BuildAcc) (pg : Page) : BuildAcc :=
  pg.words.enum.foldl (buildWordStep pg) acc

/-- Function `build_redaction_report` on the pages of the (filtered)
classified document. -/
def build_redaction_report (pages : List Page) : Report :=
  let acc := pages.foldl buildStep ⟨[], [], [], 0⟩
  ⟨⟨acc.total, acc.by_type, acc.by_page⟩, acc.items⟩

/-- One data row of the CSV export, as the tuple of values handed to
`csv.writer.writerow` (field order `page, index, type, source, text,
confidence, bbox, page_width, page_height, context`; `bbox` is the single
value passed to `json.dumps`, the writer's final stringification being
library I/O). -/
structure CsvRow where
  page : Option ℤ
  index : ℕ
  type : String
  source : String
  text : String
  confidence : Option ℚ
  bbox : Option BBox
  page_width : Option ℤ
  page_height : Option ℤ
  context : String
deriving DecidableEq, Repr

/-- The row written for one report item by `report_to_csv_bytes`. -/
def itemToRow (r : ReportItem) : CsvRow :=
  ⟨r.page, r.index, r.type, r.source, r.text, r.confidence, r.bbox,
   r.page_width, r.page_height, r.context⟩

/-- Function `report_to_csv_bytes`, reduced to its data rows: one row per
item, in order. -/
def report_to_csv_rows (rep : Report) : List CsvRow :=
  rep.items.map itemToRow

/-- Specification-side enumeration of report items ("one item per token
whose annotation has is_pii true, in page-then-index order"), for
comparison with `build_redaction_report`. -/
def reportItemsSpec (pages : List Page) : List ReportItem :=
  pages.flatMap (fun pg =>
    ((pg.words.enum.filter (fun p => p.2.pii.is_pii)).map (fun p => mkItem pg p.1 p.2)))

/-- A matcher record that never fires, used to instantiate oracles in
concrete evaluations. -/
def noMatch : Matchers :=
  ⟨fun _ => false, fun _ => false, fun _ => false⟩

/- ---------------------------------------------------------------- -/
/- Helper lemmas. -/

/-- Round-trip of `Char.ofNat` on valid code points. -/
theorem char_ofNat_toNat (n : ℕ) (h : n.isValidChar) : (Char.ofNat n).toNat = n := by
  simp only [Char.ofNat, h, dif_pos, Char.ofNatAux, Char.toNat]
  rfl

/-- Lower-casing a character is idempotent. -/
theorem char_toLower_idem (c : Char) : c.toLower.toLower = c.toLower := by
  unfold Char.toLower
  by_cases h : c.toNat ≥ 65 ∧ c.toNat ≤ 90
  · have hv : (c.toNat + 32).isValidChar := Or.inl (by omega)
    have h2 : (Char.ofNat (c.toNat + 32)).toNat = c.toNat + 32 := char_ofNat_toNat _ hv
    rw [if_pos h, h2, if_neg (by omega)]
  · rw [if_neg h, if_neg h]

/-- Lower-casing a string is idempotent. -/
theorem pyLower_idem (s : String) : pyLower (pyLower s) = pyLower s := by
  simp only [pyLower, List.map_map]
  exact congrArg String.mk (List.map_congr_left (fun c _ => char_toLower_idem c))

/-- Lower-casing preserves non-emptiness. -/
theorem pyLower_ne_empty (s : String) (h : s ≠ "") : pyLower s ≠ "" := by
  intro he
  apply h
  have h1 : s.data.map Char.toLower = [] := by
    have h2 := congrArg String.data he
    simpa [pyLower] using h2
  have hnil : s.data = [] := List.map_eq_nil_iff.mp h1
  cases s with
  | mk data =>
    simp only at hnil
    subst hnil
    rfl

/- ---------------------------------------------------------------- -/
/- C5 : type normalization. -/

/-- The fixed UI category vocabulary. -/
def NORMALIZED_VOCAB : List String :=
  ["name", "email", "phone", "address", "ip", "id_number", "password", "other"]

/-- Normalization always lands in the fixed vocabulary. -/
theorem normalize_mem_vocab (t : Option String) : _normalize_type t ∈ NORMALIZED_VOCAB := by
  cases t with
  | none => decide
  | some s =>
    by_cases h : s = ""
    · subst h
      decide
    · simp only [_normalize_type]
      rw [if_neg h]
      by_cases h1 : _NAME_ALIASES.contains (pyStrip (pyLower s)) = true
      · rw [if_pos h1]
        decide
      · rw [if_neg h1]
        by_cases h2 :
            (["email", "phone", "ip", "address", "id_number", "password", "other"] : List String).contains
              (pyStrip (pyLower s)) = true
        · rw [if_pos h2]
          have hm : pyStrip (pyLower s) ∈
              (["email", "phone", "ip", "address", "id_number", "password", "other"] : List String) :=
            List.elem_iff.mp h2
          simp only [List.mem_cons, List.not_mem_nil, or_false] at hm
          simp only [NORMALIZED_VOCAB, List.mem_cons, List.not_mem_nil, or_false]
          tauto
        · rw [if_neg h2]
          by_cases h3 : _ID_ALIASES.contains (pyStrip (pyLower s)) = true
          · rw [if_pos h3]
            decide
          · rw [if_neg h3]
            decide

/-- Normalizing an already-normalized value is the identity. -/
theorem normalize_fix (v : String) (hv : v ∈ NORMALIZED_VOCAB) :
    _normalize_type (some v) = v := by
  simp only [NORMALIZED_VOCAB, List.mem_cons, List.not_mem_nil, or_false] at hv
  rcases hv with h | h | h | h | h | h | h | h <;> subst h <;> decide

/-- Normalization only looks at the lower-cased string. -/
theorem normalize_lower (s : String) :
    _normalize_type (some (pyLower s)) = _normalize_type (some s) := by
  by_cases h : s = ""
  · subst h
    decide
  · have hne : pyLower s ≠ "" := pyLower_ne_empty s h
    simp only [_normalize_type]
    rw [if_neg hne, if_neg h, pyLower_idem]

/-- Claim C5: `_normalize_type` is idempotent, always returns a member of
the fixed vocabulary `name, email, phone, address, ip, id_number,
password, other`, is case-insensitive, maps the id aliases (`"ssn"`,
`"SSN"`, `"Tax_ID"`, `"bank_account"`) to `id_number` and the name aliases
(`"full_name"`, `"surname"`) to `name`, maps unrecognized non-empty
strings to `other`, and maps an absent or empty type to `other`. -/
theorem normalize_type_spec :
    (∀ t : Option String, _normalize_type (some (_normalize_type t)) = _normalize_type t) ∧
    (∀ t : Option String, _normalize_type t ∈ NORMALIZED_VOCAB) ∧
    (∀ s : String, _normalize_type (some (pyLower s)) = _normalize_type (some s)) ∧
    (_normalize_type (some "ssn") = "id_number" ∧ _normalize_type (some "SSN") = "id_number" ∧
     _normalize_type (some "Tax_ID") = "id_number" ∧
     _normalize_type (some "bank_account") = "id_number") ∧
    (_normalize_type (some "full_name") = "name" ∧ _normalize_type (some "surname") = "name") ∧
    (∀ s : String, s ≠ "" →
      pyStrip (pyLower s) ∉ _NAME_ALIASES →
      pyStrip (pyLower s) ∉ (["email", "phone", "ip", "address", "id_number", "password", "other"] : List String) →
      pyStrip (pyLower s) ∉ _ID_ALIASES →
      _normalize_type (some s) = "other") ∧
    (_normalize_type none = "other" ∧ _normalize_type (some "") = "other") := by
  refine ⟨fun t => normalize_fix _ (normalize_mem_vocab t), normalize_mem_vocab,
    normalize_lower, ⟨by decide, by decide, by decide, by decide⟩, ⟨by decide, by decide⟩,
    ?_, ⟨by decide, by decide⟩⟩
  intro s hs h1 h2 h3
  simp only [_normalize_type]
  rw [if_neg hs,
    if_neg (by simpa using fun hc => h1 (List.elem_iff.mp hc)),
    if_neg (by simpa using fun hc => h2 (List.elem_iff.mp hc)),
    if_neg (by simpa using fun hc => h3 (List.elem_iff.mp hc))]

/-- Witness for C5 at concrete inputs: the unrecognized-string clause at
`"XyZ"`, discharged by evaluation. -/
theorem normalize_type_spec_witness : _normalize_type (some "XyZ") = "other" :=
  normalize_type_spec.2.2.2.2.2.1 "XyZ" (by decide) (by decide) (by decide) (by decide)

/- ---------------------------------------------------------------- -/
/- C2 : pixel-to-point geometry. -/

/-- Claim C2: for every bbox, margin and DPI, the candidate rectangle
before clipping is the bbox expanded symmetrically by the margin on all
four sides with corners scaled by `72 / dpi`; in particular at DPI 300
with margin 2, bbox `{x:100, y:50, w:40, h:10}` expands to
`{98, 48, 44, 14}` and scales to the point rectangle
`(23.52, 11.52, 34.08, 14.88)`. -/
theorem px_geometry_spec :
    (∀ (b : BBox) (margin d : ℚ),
      px_to_pdf_rect (expand_bbox b margin) (72 / d) =
        ⟨(b.x - margin) * (72 / d), (b.y - margin) * (72 / d),
         (b.x + b.w + margin) * (72 / d), (b.y + b.h + margin) * (72 / d)⟩) ∧
    expand_bbox ⟨100, 50, 40, 10⟩ 2 = ⟨98, 48, 44, 14⟩ ∧
    px_to_pdf_rect ⟨98, 48, 44, 14⟩ (72 / 300) =
      ⟨2352 / 100, 1152 / 100, 3408 / 100, 1488 / 100⟩ := by
  refine ⟨fun b margin d => ?_,
    by simp only [expand_bbox, BBox.mk.injEq]; norm_num,
    by simp only [px_to_pdf_rect, Rect.mk.injEq]; norm_num⟩
  simp only [px_to_pdf_rect, expand_bbox, Rect.mk.injEq]
  refine ⟨by ring, by ring, by ring, by ring⟩

/- ---------------------------------------------------------------- -/
/- C7 : default category coverage (code bug: no `password`). -/

/-- A word flagged as a password, with a box well inside a letter page at
DPI 300. -/
def pwWord : Word :=
  ⟨"hunter2", some ⟨100, 50, 40, 10⟩, none, none, none, ⟨true, some "password", none⟩⟩

/-- Claim C7 fails on the code: `redactor.py`'s `ALL_TYPES` omits
`"password"`, so with the default `--types all` selection a token whose
type is `password` — which the normalizer recognizes and the category
filter keeps — passes no redaction-type check and yields no rectangle.
This theorem evaluates the code at the failing input. -/
theorem password_not_covered_by_default :
    ("password" ∉ ALL_TYPES) ∧
    parse_types "all" = ALL_TYPES ∧
    _normalize_type (some "password") = "password" ∧
    filterWord ["password"] pwWord = pwWord ∧
    pageBoxes (parse_types "all") 2 (72 / 300) ⟨0, 0, 612, 792⟩ [pwWord] = [] := by
  exact ⟨by decide, by decide, by decide, by decide, by decide⟩

/- ---------------------------------------------------------------- -/
/- C6 : de-duplication and overwrite semantics of `_mark`. -/

/-- Reading an element after an in-place update at some position. -/
theorem modifyAt_getElem {α : Type} (f : α → α) (n j : ℕ) (l : List α) :
    (modifyAt f n l)[j]? = if j = n then Option.map f l[j]? else l[j]? := by
  induction l generalizing n j with
  | nil => simp [modifyAt]
  | cons a as ih =>
    cases n with
    | zero =>
      cases j with
      | zero => simp [modifyAt]
      | succ j => simp [modifyAt]
    | succ n =>
      cases j with
      | zero => simp [modifyAt]
      | succ j =>
        simp only [modifyAt, List.getElem?_cons_succ, Nat.add_right_cancel_iff]
        exact ih n j

/-- Rewriting the annotation twice keeps only the last write. -/
theorem writePii_writePii (r2 r : Red) (w : Word) :
    writePii r2 (writePii r w) = writePii r2 w := rfl

/-- What `_mark` leaves at position `j`: untouched when no entry targets
`j`, and the last targeting entry's annotation otherwise. -/
theorem mark_getElem (red : List Red) : ∀ (ws : List Word) (start : ℤ) (j : ℕ) (w : Word),
    ws[j]? = some w →
    ((red.filter (fun r => start + r.index == (j : ℤ))) = [] →
      (_mark ws red start)[j]? = some w) ∧
    (∀ r2, (red.filter (fun r => start + r.index == (j : ℤ))).getLast? = some r2 →
      (_mark ws red start)[j]? = some (writePii r2 w)) := by
  induction red with
  | nil =>
    intro ws start j w hw
    refine ⟨fun _ => by simpa [_mark] using hw, fun r2 h => by simp at h⟩
  | cons r rest ih =>
    intro ws start j w hw
    have hj : j < ws.length := (List.getElem?_eq_some_iff.mp hw).1
    by_cases hb : start + r.index = (j : ℤ)
    · have hcond : 0 ≤ start + r.index ∧ start + r.index < (ws.length : ℤ) := by
        refine ⟨by rw [hb]; exact Int.natCast_nonneg j, by rw [hb]; exact_mod_cast hj⟩
      have htn : (start + r.index).toNat = j := by
        rw [hb]
        exact Int.toNat_natCast j
      have hstep : _mark ws (r :: rest) start =
          _mark (modifyAt (writePii r) j ws) rest start := by
        simp only [_mark, List.foldl_cons]
        rw [if_pos hcond, htn]
      have hw2 : (modifyAt (writePii r) j ws)[j]? = some (writePii r w) := by
        rw [modifyAt_getElem, if_pos rfl, hw]
        rfl
      have ihm := ih (modifyAt (writePii r) j ws) start j (writePii r w) hw2
      have hfilt : (r :: rest).filter (fun r0 => start + r0.index == (j : ℤ)) =
          r :: rest.filter (fun r0 => start + r0.index == (j : ℤ)) := by
        rw [List.filter_cons, if_pos (beq_iff_eq.mpr hb)]
      constructor
      · intro hnil
        rw [hfilt] at hnil
        exact absurd hnil (List.cons_ne_nil _ _)
      · intro r2 hlast
        rw [hfilt] at hlast
        rcases hrest : rest.filter (fun r0 => start + r0.index == (j : ℤ)) with _ | ⟨x, xs⟩
        · rw [hrest, List.getLast?_singleton] at hlast
          have hr2 : r2 = r := (Option.some.injEq _ _).mp hlast.symm
          subst hr2
          rw [hstep]
          exact ihm.1 hrest
        · rw [hrest, List.getLast?_cons_cons] at hlast
          rw [hstep]
          have hres := ihm.2 r2 (by rw [hrest]; exact hlast)
          rw [writePii_writePii] at hres
          exact hres
    · have hstep : ∃ ws2 : List Word, _mark ws (r :: rest) start = _mark ws2 rest start ∧
          ws2[j]? = some w := by
        by_cases hcond : 0 ≤ start + r.index ∧ start + r.index < (ws.length : ℤ)
        · refine ⟨modifyAt (writePii r) (start + r.index).toNat ws, ?_, ?_⟩
          · simp only [_mark, List.foldl_cons]
            rw [if_pos hcond]
          · rw [modifyAt_getElem, if_neg, hw]
            intro hj2
            apply hb
            have h3 : ((start + r.index).toNat : ℤ) = start + r.index :=
              Int.toNat_of_nonneg hcond.1
            rw [← h3, hj2]
        · refine ⟨ws, ?_, hw⟩
          simp only [_mark, List.foldl_cons]
          rw [if_neg hcond]
      obtain ⟨ws2, hstep, hw2⟩ := hstep
      have ihm := ih ws2 start j w hw2
      have hfilt : (r :: rest).filter (fun r0 => start + r0.index == (j : ℤ)) =
          rest.filter (fun r0 => start + r0.index == (j : ℤ)) := by
        rw [List.filter_cons, if_neg]
        simpa using hb
      rw [hfilt, hstep]
      exact ihm

/-- Membership invariant of the de-duplication loop: every surviving entry
avoids `seen` and is the first raw entry with its index. -/
theorem dedupFirst_mem_invariant : ∀ (out : List Red) (seen : List ℤ) (r : Red),
    r ∈ dedupFirstByIndex out seen →
    r.index ∉ seen ∧ out.find? (fun r2 => r2.index == r.index) = some r := by
  intro out
  induction out with
  | nil =>
    intro seen r h
    simp [dedupFirstByIndex] at h
  | cons o rest ih =>
    intro seen r h
    by_cases ho : o.index ∈ seen
    · rw [dedupFirstByIndex, if_pos ho] at h
      obtain ⟨hni, hfind⟩ := ih seen r h
      have hne : o.index ≠ r.index := fun he => hni (he ▸ ho)
      refine ⟨hni, ?_⟩
      rw [List.find?_cons_of_neg _ (by simpa using hne)]
      exact hfind
    · rw [dedupFirstByIndex, if_neg ho] at h
      rcases List.mem_cons.mp h with h1 | h1
      · subst h1
        exact ⟨ho, List.find?_cons_of_pos _ (beq_self_eq_true _)⟩
      · obtain ⟨hni, hfind⟩ := ih (o.index :: seen) r h1
        have hne : o.index ≠ r.index :=
          fun he => hni (he ▸ List.mem_cons_self _ _)
        refine ⟨fun hs => hni (List.mem_cons_of_mem _ hs), ?_⟩
        rw [List.find?_cons_of_neg _ (by simpa using hne)]
        exact hfind

/-- The de-duplicated list has pairwise distinct indices. -/
theorem dedupFirst_pairwise : ∀ (out : List Red) (seen : List ℤ),
    (dedupFirstByIndex out seen).Pairwise (fun a b => a.index ≠ b.index) := by
  intro out
  induction out with
  | nil =>
    intro seen
    simp [dedupFirstByIndex]
  | cons o rest ih =>
    intro seen
    by_cases ho : o.index ∈ seen
    · rw [dedupFirstByIndex, if_pos ho]
      exact ih seen
    · rw [dedupFirstByIndex, if_neg ho]
      refine List.Pairwise.cons ?_ (ih (o.index :: seen))
      intro b hb
      have hni := (dedupFirst_mem_invariant rest (o.index :: seen) b hb).1
      exact fun he => hni (he ▸ List.mem_cons_self _ _)

/-- A remote oracle that returns two classifications for the same
chunk-local index 0, with different types. -/
def dupRemote : ℕ → List Word → RemoteOutcome :=
  fun _ _ => RemoteOutcome.ok [⟨0, some "email"⟩, ⟨0, some "phone"⟩]

/-- A single plain unclassified word. -/
def w0 : Word := ⟨"alice", none, none, none, none, ⟨false, none, none⟩⟩

/-- Counterexample to claim C6 as stated: when the remote result list for a
chunk contains two entries with index 0 — first `email`, then `phone` —
the annotation finally written carries the type of the LAST entry
(`phone`), not of the first (`email`): results are not de-duplicated
before writing on the remote path, and `_mark` overwrites. -/
theorem first_wins_refuted :
    (tag_page dupRemote noMatch 600 [w0]).map (fun w => w.pii.type) = [some "phone"] ∧
    ¬((tag_page dupRemote noMatch 600 [w0]).map (fun w => w.pii.type) = [some "email"]) := by
  exact ⟨by decide, by decide⟩

/-- Claim C6 (amended): only the regex fallback de-duplicates by index —
every entry it returns is the first raw hit with its index, and its
indices are pairwise distinct — while `_mark` (hence the remote path,
which performs no de-duplication) writes entries in order, so the
annotation finally written for a token carries the type of the LAST result
entry with that token's index, and a token targeted by no entry keeps its
annotation. -/
theorem dedup_and_overwrite_semantics :
    (∀ (m : Matchers) (ws : List Word) (r : Red), r ∈ regex_pii_indices m ws →
      (regexRawHits m ws).find? (fun r2 => r2.index == r.index) = some r) ∧
    (∀ (m : Matchers) (ws : List Word),
      (regex_pii_indices m ws).Pairwise (fun a b => a.index ≠ b.index)) ∧
    (∀ (ws : List Word) (red : List Red) (start : ℤ) (j : ℕ) (w : Word), ws[j]? = some w →
      ((red.filter (fun r => start + r.index == (j : ℤ))) = [] →
        (_mark ws red start)[j]? = some w) ∧
      (∀ r2, (red.filter (fun r => start + r.index == (j : ℤ))).getLast? = some r2 →
        (_mark ws red start)[j]? = some (writePii r2 w))) := by
  refine ⟨fun m ws r h => (dedupFirst_mem_invariant _ _ _ h).2,
    fun m ws => dedupFirst_pairwise _ _,
    fun ws red start j w hw => mark_getElem red ws start j w hw⟩

/-- Witness for C6 (amended) at a concrete input: two entries target index
0 and the last one (`phone`) is the annotation `_mark` leaves there. -/
theorem dedup_and_overwrite_semantics_witness :
    (_mark [w0] [⟨0, some "email"⟩, ⟨0, some "phone"⟩] 0)[0]? =
      some (writePii ⟨0, some "phone"⟩ w0) :=
  (dedup_and_overwrite_semantics.2.2 [w0] [⟨0, some "email"⟩, ⟨0, some "phone"⟩] 0 0 w0
    (by decide)).2 ⟨0, some "phone"⟩ (by decide)

/- ---------------------------------------------------------------- -/
/- C1 : index stability of chunked classification. -/

/-- Concatenating the chunks reconstructs any sequence that fits in `n`
chunks. -/
theorem chunk_flatten_aux {α : Type} (size : ℕ) :
    ∀ (n : ℕ) (seq : List α), seq.length ≤ n * size →
      (((List.range n).map (fun k => (seq.drop (k * size)).take size)).flatten = seq) := by
  intro n
  induction n with
  | zero =>
    intro seq h
    simp only [Nat.zero_mul, Nat.le_zero] at h
    simp [List.eq_nil_of_length_eq_zero h]
  | succ n ih =>
    intro seq h
    rw [List.range_succ_eq_map, List.map_cons, List.map_map]
    have hmap :
        (List.range n).map ((fun k => (seq.drop (k * size)).take size) ∘ Nat.succ) =
          (List.range n).map (fun k => ((seq.drop size).drop (k * size)).take size) := by
      refine List.map_congr_left (fun k _ => ?_)
      simp only [Function.comp_apply]
      have hidx : k.succ * size = size + k * size := by
        rw [Nat.succ_mul]
        exact Nat.add_comm _ _
      rw [hidx, ← List.drop_drop]
    rw [hmap]
    have hlen : (seq.drop size).length ≤ n * size := by
      rw [List.length_drop]
      have : (n + 1) * size = n * size + size := by ring
      omega
    simp only [List.flatten_cons, Nat.zero_mul, List.drop_zero]
    rw [ih (seq.drop size) hlen]
    exact List.take_append_drop size seq

/-- Claim C1: for every sequence and chunk size `N > 0`, the chunks of
`_chunk` are consecutive and non-overlapping — their concatenation is the
original sequence — and remapping a chunk-local index `j` by adding the
chunk's start recovers exactly the token that sat at that global position
in the unsplit sequence (the position `_mark` writes to). -/
theorem chunk_index_stability {α : Type} (seq : List α) (size : ℕ) (hsize : 0 < size) :
    (((_chunk seq size).map Prod.snd).flatten = seq) ∧
    (∀ (start : ℕ) (ck : List α), (start, ck) ∈ _chunk seq size →
      ∀ j : ℕ, j < ck.length → ck[j]? = seq[start + j]?) := by
  constructor
  · have hceil : seq.length ≤ ((seq.length + size - 1) / size) * size := by
      have h1 := Nat.div_add_mod (seq.length + size - 1) size
      have h2 := Nat.mod_lt (seq.length + size - 1) hsize
      have h3 : ((seq.length + size - 1) / size) * size =
          size * ((seq.length + size - 1) / size) := Nat.mul_comm _ _
      omega
    have := chunk_flatten_aux size ((seq.length + size - 1) / size) seq hceil
    simpa [_chunk, List.map_map, Function.comp] using this
  · intro start ck hmem j hj
    simp only [_chunk, List.mem_map, List.mem_range, Prod.mk.injEq] at hmem
    obtain ⟨k, hk, hstart, hc⟩ := hmem
    subst hstart
    subst hc
    have hjs : j < size := by
      rw [List.length_take, lt_min_iff] at hj
      exact hj.1
    rw [List.getElem?_take, if_pos hjs, List.getElem?_drop]

/-- Witness for C1 at a concrete input: chunking `[10, 20, 30]` with size 2
reassembles to the original sequence. -/
theorem chunk_index_stability_witness :
    ((_chunk [10, 20, 30] 2).map Prod.snd).flatten = [10, 20, 30] :=
  (chunk_index_stability [10, 20, 30] 2 (by decide)).1

/- ---------------------------------------------------------------- -/
/- C3 : category filter semantics. -/

/-- Claim C3: after filtering, a token is flagged iff it was flagged before
and its normalized type is in the kept set; a flagged token whose
normalized type is not kept has its annotation reset to
`{is_pii: false, type: null}`; all other tokens are returned unchanged. -/
theorem filter_pii_spec (keep : List String) (pages : List Page) (pi wi : ℕ)
    (pg : Page) (w : Word) (hpg : pages[pi]? = some pg) (hw : pg.words[wi]? = some w) :
    ∃ w2 : Word,
      ((filter_pii keep pages)[pi]?.bind (fun pg2 => pg2.words[wi]?)) = some w2 ∧
      (w2.pii.is_pii = true ↔ (w.pii.is_pii = true ∧ _normalize_type w.pii.type ∈ keep)) ∧
      (w.pii.is_pii = true → _normalize_type w.pii.type ∉ keep →
        w2.pii.is_pii = false ∧ w2.pii.type = none) ∧
      (w.pii.is_pii = false → w2 = w) ∧
      (w.pii.is_pii = true → _normalize_type w.pii.type ∈ keep → w2 = w) := by
  refine ⟨filterWord keep w, ?_, ?_, ?_, ?_, ?_⟩
  · simp only [filter_pii, List.getElem?_map, hpg, Option.map_some, Option.bind_some]
    simp [hw]
  · by_cases hp : w.pii.is_pii
    · by_cases hk : _normalize_type w.pii.type ∈ keep
      · simp [filterWord, hp, List.elem_iff.mpr hk, hk]
      · have hkc : keep.contains (_normalize_type w.pii.type) = false := by
          by_contra hc
          exact hk (List.elem_iff.mp (by simpa using hc))
        simp [filterWord, hp, hkc, hk]
    · simp [filterWord, Bool.of_not_eq_true hp, hp]
  · intro hp hk
    have hkc : keep.contains (_normalize_type w.pii.type) = false := by
      by_contra hc
      exact hk (List.elem_iff.mp (by simpa using hc))
    simp [filterWord, hp, hkc, hk]
  · intro hp
    simp [filterWord, hp]
  · intro hp hk
    simp [filterWord, hp, List.elem_iff.mpr hk, hk]

/-- A flagged email word. -/
def emailWord : Word :=
  ⟨"a@b.co", some ⟨1, 2, 3, 4⟩, none, none, some 91, ⟨true, some "email", none⟩⟩

/-- A one-page document holding only `emailWord`. -/
def pgEmail : Page := ⟨some 1, some 2550, some 3300, [emailWord]⟩

/-- Witness for C3 at a concrete input: with kept set `["email"]` the
flagged email word passes through the filter unchanged. -/
theorem filter_pii_spec_witness :
    ∃ w2 : Word,
      ((filter_pii ["email"] [pgEmail])[0]?.bind (fun pg2 => pg2.words[0]?)) = some w2 ∧
      (w2.pii.is_pii = true ↔
        (emailWord.pii.is_pii = true ∧ _normalize_type emailWord.pii.type ∈ ["email"])) ∧
      (emailWord.pii.is_pii = true → _normalize_type emailWord.pii.type ∉ ["email"] →
        w2.pii.is_pii = false ∧ w2.pii.type = none) ∧
      (emailWord.pii.is_pii = false → w2 = emailWord) ∧
      (emailWord.pii.is_pii = true → _normalize_type emailWord.pii.type ∈ ["email"] →
        w2 = emailWord) :=
  filter_pii_spec ["email"] [pgEmail] 0 0 pgEmail emailWord (by decide) (by decide)

/- ---------------------------------------------------------------- -/
/- C4 : fallback exclusivity. -/

/-- Claim C4: for a chunk, the result list the page tagger hands to
`_mark` is exactly the remote result when the remote call returns a
non-empty list, and exactly the regex fallback result when the remote call
raises or returns an empty list; the two are never combined. -/
theorem fallback_exclusivity (remote : ℕ → List Word → RemoteOutcome) (m : Matchers)
    (start : ℕ) (ck : List Word) :
    (∀ l, remote start ck = RemoteOutcome.ok l → l ≠ [] → chunkRed remote m start ck = l) ∧
    (remote start ck = RemoteOutcome.err →
      chunkRed remote m start ck = regex_pii_indices m ck) ∧
    (remote start ck = RemoteOutcome.ok [] →
      chunkRed remote m start ck = regex_pii_indices m ck) ∧
    ((chunkRed remote m start ck = regex_pii_indices m ck) ∨
      (∃ l, remote start ck = RemoteOutcome.ok l ∧ l ≠ [] ∧
        chunkRed remote m start ck = l)) := by
  refine ⟨?_, ?_, ?_, ?_⟩
  · intro l hres hne
    simp [chunkRed, hres, List.isEmpty_iff, hne]
  · intro hres
    simp [chunkRed, hres]
  · intro hres
    simp [chunkRed, hres]
  · cases hres : remote start ck with
    | err => exact Or.inl (by simp [chunkRed, hres])
    | ok l =>
      cases l with
      | nil => exact Or.inl (by simp [chunkRed, hres])
      | cons x xs =>
        exact Or.inr ⟨x :: xs, rfl, by simp, by simp [chunkRed, hres]⟩

/-- Witness for C4 at a concrete input: a remote oracle that always raises
makes the chunk fall back to the regex classifier. -/
theorem fallback_exclusivity_witness :
    chunkRed (fun _ _ => RemoteOutcome.err) noMatch 0 [w0] =
      regex_pii_indices noMatch [w0] :=
  (fallback_exclusivity (fun _ _ => RemoteOutcome.err) noMatch 0 [w0]).2.1 rfl

/- ---------------------------------------------------------------- -/
/- C8 : clipping and degenerate exclusion. -/

/-- Claim C8: the applied rectangle is the intersection of the candidate
with the page rectangle — a candidate entirely outside the page clips to
zero or negative width or height and is excluded (the word yields no box,
no error); a candidate partially outside is clipped to exactly the page
boundary on each overlapping side and kept unchanged on the others; and
every rectangle the box-collection loop keeps lies within the page and has
positive width and height. -/
theorem clipping_spec (r p : Rect) :
    ((r.x1 ≤ p.x0 ∨ p.x1 ≤ r.x0 ∨ r.y1 ≤ p.y0 ∨ p.y1 ≤ r.y0) →
      ¬(0 < (clamp_rect r p).width ∧ 0 < (clamp_rect r p).height)) ∧
    ((r.x0 < p.x0 → (clamp_rect r p).x0 = p.x0) ∧ (p.x0 ≤ r.x0 → (clamp_rect r p).x0 = r.x0) ∧
     (r.y0 < p.y0 → (clamp_rect r p).y0 = p.y0) ∧ (p.y0 ≤ r.y0 → (clamp_rect r p).y0 = r.y0) ∧
     (p.x1 < r.x1 → (clamp_rect r p).x1 = p.x1) ∧ (r.x1 ≤ p.x1 → (clamp_rect r p).x1 = r.x1) ∧
     (p.y1 < r.y1 → (clamp_rect r p).y1 = p.y1) ∧ (r.y1 ≤ p.y1 → (clamp_rect r p).y1 = r.y1)) ∧
    (∀ (w : Word) (wanted : List String) (margin scale : ℚ) (b : BBox),
      w.bbox = some b →
      ¬(0 < (clamp_rect (px_to_pdf_rect (expand_bbox b margin) scale) p).width ∧
        0 < (clamp_rect (px_to_pdf_rect (expand_bbox b margin) scale) p).height) →
      wordBox wanted margin scale p w = none) ∧
    (∀ (wanted : List String) (margin scale : ℚ) (ws : List Word) (rt : Rect × String),
      rt ∈ pageBoxes wanted margin scale p ws →
      p.x0 ≤ rt.1.x0 ∧ rt.1.x1 ≤ p.x1 ∧ p.y0 ≤ rt.1.y0 ∧ rt.1.y1 ≤ p.y1 ∧
      0 < rt.1.width ∧ 0 < rt.1.height) := by
  refine ⟨?_, ?_, ?_, ?_⟩
  · intro hout hpos
    obtain ⟨hw, hh⟩ := hpos
    simp only [clamp_rect, rectIntersect, Rect.width, Rect.height] at hw hh
    rcases hout with h | h | h | h
    · have h1 : min r.x1 p.x1 ≤ r.x1 := min_le_left _ _
      have h2 : p.x0 ≤ max r.x0 p.x0 := le_max_right _ _
      linarith
    · have h1 : min r.x1 p.x1 ≤ p.x1 := min_le_right _ _
      have h2 : r.x0 ≤ max r.x0 p.x0 := le_max_left _ _
      linarith
    · have h1 : min r.y1 p.y1 ≤ r.y1 := min_le_left _ _
      have h2 : p.y0 ≤ max r.y0 p.y0 := le_max_right _ _
      linarith
    · have h1 : min r.y1 p.y1 ≤ p.y1 := min_le_right _ _
      have h2 : r.y0 ≤ max r.y0 p.y0 := le_max_left _ _
      linarith
  · simp only [clamp_rect, rectIntersect]
    refine ⟨fun h => max_eq_right h.le, fun h => max_eq_left h,
      fun h => max_eq_right h.le, fun h => max_eq_left h,
      fun h => min_eq_right h.le, fun h => min_eq_left h,
      fun h => min_eq_right h.le, fun h => min_eq_left h⟩
  · intro w wanted margin scale b hb hdeg
    simp only [wordBox]
    by_cases hp : w.pii.is_pii
    · simp only [hp, Bool.not_true, Bool.false_eq_true, if_false]
      by_cases hk : wanted.contains (wordType w) = true
      · simp only [hk, Bool.not_true, Bool.false_eq_true, if_false]
        rw [hb]
        simp only [if_neg hdeg]
      · have hkf : wanted.contains (wordType w) = false := Bool.eq_false_iff.mpr hk
        rw [hkf]
        rfl
    · simp [hp]
  · intro wanted margin scale ws rt hmem
    obtain ⟨w, _, hwb⟩ := List.mem_filterMap.mp hmem
    simp only [wordBox] at hwb
    by_cases hp : w.pii.is_pii
    · simp only [hp, Bool.not_true, Bool.false_eq_true, if_false] at hwb
      by_cases hk : wanted.contains (wordType w) = true
      · simp only [hk, Bool.not_true, Bool.false_eq_true, if_false] at hwb
        cases hbb : w.bbox with
        | none =>
          rw [hbb] at hwb
          exact absurd hwb (by simp)
        | some b =>
          rw [hbb] at hwb
          dsimp only at hwb
          by_cases hpos :
              0 < (clamp_rect (px_to_pdf_rect (expand_bbox b margin) scale) p).width ∧
              0 < (clamp_rect (px_to_pdf_rect (expand_bbox b margin) scale) p).height
          · rw [if_pos hpos] at hwb
            have hrt : rt = (clamp_rect (px_to_pdf_rect (expand_bbox b margin) scale) p,
                wordType w) :=
              ((Option.some.injEq _ _).mp hwb).symm
            subst hrt
            refine ⟨?_, ?_, ?_, ?_, hpos.1, hpos.2⟩ <;>
              simp only [clamp_rect, rectIntersect] <;>
              first
                | exact le_max_right _ _
                | exact min_le_right _ _
          · rw [if_neg hpos] at hwb
            exact absurd hwb (by simp)
      · have hkf : wanted.contains (wordType w) = false := Bool.eq_false_iff.mpr hk
        rw [hkf] at hwb
        simp at hwb
    · simp [hp] at hwb

/-- Witness for C8 at a concrete input: a candidate entirely left of and
above the page clips to a degenerate rectangle. -/
theorem clipping_spec_witness :
    ¬(0 < (clamp_rect ⟨-10, -10, -5, -5⟩ ⟨0, 0, 612, 792⟩).width ∧
      0 < (clamp_rect ⟨-10, -10, -5, -5⟩ ⟨0, 0, 612, 792⟩).height) :=
  (clipping_spec ⟨-10, -10, -5, -5⟩ ⟨0, 0, 612, 792⟩).1 (Or.inl (by norm_num))

/- ---------------------------------------------------------------- -/
/- C9 : report / CSV parity. -/

/-- Claim C9: the flat tabular export has exactly one data row per
structured report item, in the same order, and each row's ten fields equal
the corresponding item's fields field-for-field (bbox carried as the
single serialized field). -/
theorem report_csv_parity (rep : Report) :
    (report_to_csv_rows rep).length = rep.items.length ∧
    (∀ (i : ℕ) (r : ReportItem), rep.items[i]? = some r →
      ∃ row : CsvRow, (report_to_csv_rows rep)[i]? = some row ∧
        row.page = r.page ∧ row.index = r.index ∧ row.type = r.type ∧
        row.source = r.source ∧ row.text = r.text ∧ row.confidence = r.confidence ∧
        row.bbox = r.bbox ∧ row.page_width = r.page_width ∧
        row.page_height = r.page_height ∧ row.context = r.context) := by
  constructor
  · simp [report_to_csv_rows]
  · intro i r hi
    refine ⟨itemToRow r, ?_, rfl, rfl, rfl, rfl, rfl, rfl, rfl, rfl, rfl, rfl⟩
    rw [report_to_csv_rows, List.getElem?_map, hi]
    rfl

/-- Witness for C9 at a concrete input: the report of the one-page
email document has a first CSV row matching its first item. -/
theorem report_csv_parity_witness :
    ∃ row : CsvRow,
      (report_to_csv_rows (build_redaction_report [pgEmail]))[0]? = some row ∧
      row.page = (mkItem pgEmail 0 emailWord).page ∧
      row.index = (mkItem pgEmail 0 emailWord).index ∧
      row.type = (mkItem pgEmail 0 emailWord).type ∧
      row.source = (mkItem pgEmail 0 emailWord).source ∧
      row.text = (mkItem pgEmail 0 emailWord).text ∧
      row.confidence = (mkItem pgEmail 0 emailWord).confidence ∧
      row.bbox = (mkItem pgEmail 0 emailWord).bbox ∧
      row.page_width = (mkItem pgEmail 0 emailWord).page_width ∧
      row.page_height = (mkItem pgEmail 0 emailWord).page_height ∧
      row.context = (mkItem pgEmail 0 emailWord).context :=
  (report_csv_parity (build_redaction_report [pgEmail])).2 0 (mkItem pgEmail 0 emailWord)
    (by decide)

/- ---------------------------------------------------------------- -/
/- C10 : report summary consistency. -/

/-- Bumping a counter key raises the total count by exactly one. -/
theorem bump_sumCounts {α : Type} [DecidableEq α] (c : List (α × ℕ)) (k : α) :
    sumCounts (bump c k) = sumCounts c + 1 := by
  induction c with
  | nil => rfl
  | cons p rest ih =>
    obtain ⟨k2, n⟩ := p
    by_cases h : k2 = k
    · simp only [bump, if_pos h, sumCounts, List.map_cons, List.sum_cons]
      omega
    · simp only [bump, if_neg h, sumCounts, List.map_cons, List.sum_cons]
      simp only [sumCounts] at ih
      omega

/-- Invariant of the inner word loop of the report builder. -/
theorem build_inner (pg : Page) (l : List (ℕ × Word)) : ∀ acc : BuildAcc,
    (List.foldl (buildWordStep pg) acc l).items =
      acc.items ++ (l.filter (fun p => p.2.pii.is_pii)).map (fun p => mkItem pg p.1 p.2) ∧
    (List.foldl (buildWordStep pg) acc l).total =
      acc.total + (l.filter (fun p => p.2.pii.is_pii)).length ∧
    sumCounts (List.foldl (buildWordStep pg) acc l).by_type =
      sumCounts acc.by_type + (l.filter (fun p => p.2.pii.is_pii)).length ∧
    sumCounts (List.foldl (buildWordStep pg) acc l).by_page =
      sumCounts acc.by_page + (l.filter (fun p => p.2.pii.is_pii)).length := by
  induction l with
  | nil =>
    intro acc
    simp
  | cons p rest ih =>
    intro acc
    rw [List.foldl_cons, List.filter_cons]
    by_cases hp : p.2.pii.is_pii
    · rw [if_pos hp]
      obtain ⟨h1, h2, h3, h4⟩ := ih (buildWordStep pg acc p)
      have hstep : buildWordStep pg acc p =
          { items := acc.items ++ [mkItem pg p.1 p.2]
            by_type := bump acc.by_type (_normalize_type p.2.pii.type)
            by_page := bump acc.by_page pg.page
            total := acc.total + 1 } := by
        simp [buildWordStep, hp]
      refine ⟨?_, ?_, ?_, ?_⟩
      · rw [h1, hstep]
        simp
      · rw [h2, hstep]
        simp only [List.length_cons]
        omega
      · rw [h3, hstep]
        simp only [List.length_cons, bump_sumCounts]
        omega
      · rw [h4, hstep]
        simp only [List.length_cons, bump_sumCounts]
        omega
    · rw [if_neg hp]
      have hstep : buildWordStep pg acc p = acc := by
        simp [buildWordStep, hp]
      rw [hstep]
      exact ih acc

/-- Invariant of the outer page loop of the report builder. -/
theorem build_outer (pages : List Page) : ∀ acc : BuildAcc,
    (pages.foldl buildStep acc).items = acc.items ++ reportItemsSpec pages ∧
    (pages.foldl buildStep acc).total = acc.total + (reportItemsSpec pages).length ∧
    sumCounts (pages.foldl buildStep acc).by_type =
      sumCounts acc.by_type + (reportItemsSpec pages).length ∧
    sumCounts (pages.foldl buildStep acc).by_page =
      sumCounts acc.by_page + (reportItemsSpec pages).length := by
  induction pages with
  | nil =>
    intro acc
    simp [reportItemsSpec]
  | cons pg rest ih =>
    intro acc
    rw [List.foldl_cons]
    obtain ⟨h1, h2, h3, h4⟩ := ih (buildStep acc pg)
    obtain ⟨g1, g2, g3, g4⟩ := build_inner pg pg.words.enum acc
    have hspec : reportItemsSpec (pg :: rest) =
        ((pg.words.enum.filter (fun p => p.2.pii.is_pii)).map (fun p => mkItem pg p.1 p.2)) ++
          reportItemsSpec rest := by
      simp [reportItemsSpec]
    have hstep : buildStep acc pg = List.foldl (buildWordStep pg) acc pg.words.enum := rfl
    refine ⟨?_, ?_, ?_, ?_⟩
    · rw [h1, hstep, g1, hspec, List.append_assoc]
    · rw [h2, hstep, g2, hspec, List.length_append, List.length_map]
      omega
    · rw [h3, hstep, g3, hspec, List.length_append, List.length_map]
      omega
    · rw [h4, hstep, g4, hspec, List.length_append, List.length_map]
      omega

/-- Claim C10: the report satisfies `summary.total` = number of items =
sum of the `by_type` counts = sum of the `by_page` counts, and the items
list holds exactly one item per flagged token, in page-then-index order
(the concatenation over pages, in document order, of each page's flagged
tokens in index order). -/
theorem report_summary_consistency (pages : List Page) :
    (build_redaction_report pages).summary.total =
      (build_redaction_report pages).items.length ∧
    sumCounts (build_redaction_report pages).summary.by_type =
      (build_redaction_report pages).summary.total ∧
    sumCounts (build_redaction_report pages).summary.by_page =
      (build_redaction_report pages).summary.total ∧
    (build_redaction_report pages).items = reportItemsSpec pages := by
  obtain ⟨h1, h2, h3, h4⟩ := build_outer pages ⟨[], [], [], 0⟩
  simp only [build_redaction_report]
  simp only [List.nil_append] at h1
  refine ⟨?_, ?_, ?_, h1⟩
  · rw [h1, h2]
    simp
  · rw [h3, h2]
    rfl
  · rw [h4, h2]
    rfl
